import Mathlib

/-!
Verification of the SMC (ATMIP) sampler in `pymc3/step_methods/smc.py`.

Floating-point vectors are modelled as `List ℝ`; NumPy operations that can
produce non-finite values are modelled explicitly where a claim depends on
them.  Python `int(...)` conversion of a float truncates toward zero and
`np.round` rounds half to even; both are embedded faithfully below.
-/

/-- Python `int(x)` on a float: truncation toward zero. -/
noncomputable def truncInt (x : ℝ) : ℤ := if 0 ≤ x then ⌊x⌋ else ⌈x⌉

/-- NumPy `np.round(x, 0)`: round to nearest, ties to even. -/
noncomputable def npRound (x : ℝ) : ℝ :=
  if x - ⌊x⌋ = 1/2 then (if Even ⌊x⌋ then (⌊x⌋ : ℝ) else (⌊x⌋ : ℝ) + 1)
  else (round x : ℝ)

/-- NumPy `arr.max()` over a one-dimensional array (`0` on the empty array,
where NumPy would raise). -/
def npMax : List ℝ → ℝ
  | [] => 0
  | [x] => x
  | x :: y :: xs => max x (npMax (y :: xs))

/-- `weights_un = np.exp((new_beta - old_beta) * (likelihoods - likelihoods.max()))`
from `SMC.calc_beta`. -/
noncomputable def weightsUn (lls : List ℝ) (old_beta new_beta : ℝ) : List ℝ :=
  lls.map fun l => Real.exp ((new_beta - old_beta) * (l - npMax lls))

/-- `weights = weights_un / np.sum(weights_un)` from `SMC.calc_beta`. -/
noncomputable def calcWeights (lls : List ℝ) (old_beta new_beta : ℝ) : List ℝ :=
  (weightsUn lls old_beta new_beta).map fun x => x / (weightsUn lls old_beta new_beta).sum

/-- `ESS = int(1 / np.sum(weights ** 2))` from `SMC.calc_beta`. -/
noncomputable def essInt (w : List ℝ) : ℤ := truncInt (1 / (w.map fun x => x ^ 2).sum)

/-- Result of the bisection loop of `SMC.calc_beta`: the last computed
`new_beta` and `weights` together with the final bracket `[low, up]`. -/
structure BetaLoopResult where
  new_beta : ℝ
  weights : List ℝ
  low : ℝ
  up : ℝ

/-- The `while up_beta - low_beta > 1e-6` bisection loop of `SMC.calc_beta`,
embedded with explicit fuel.  Each iteration halves the bracket, so any
`fuel` with `up - low ≤ 1e-6 * 2 ^ fuel` makes the fuel-exhaustion case
(`fuel = 0` with a wide bracket) unreachable; the `fuel = 0` equation
performs the same midpoint computation so that the function is total. -/
noncomputable def calcBetaLoop (lls : List ℝ) (old_beta : ℝ) (rN : ℤ) :
    ℕ → ℝ → ℝ → BetaLoopResult
  | 0, low, up => ⟨(low + up) / 2, calcWeights lls old_beta ((low + up) / 2), low, up⟩
  | fuel+1, low, up =>
    let nb := (low + up) / 2
    let w := calcWeights lls old_beta nb
    if essInt w = rN then ⟨nb, w, low, up⟩
    else
      let low2 := if essInt w < rN then low else nb
      let up2 := if essInt w < rN then nb else up
      if 1/1000000 < up2 - low2 then calcBetaLoop lls old_beta rN fuel low2 up2
      else ⟨nb, w, low2, up2⟩

/-- `SMC.calc_beta`: bisection for the next tempering parameter; returns
`(new_beta, old_beta, weights)`.  `rN = int(len(likelihoods) * threshold)`.
The guard `1e-6 < 2 - old_beta` expresses that the `while` loop body runs at
least once; otherwise Python would raise `NameError` (`new_beta` unbound),
modelled by the junk value `(0, old_beta, [])`. -/
noncomputable def calc_beta (lls : List ℝ) (old_beta threshold : ℝ) (fuel : ℕ) :
    ℝ × ℝ × List ℝ :=
  let rN := truncInt ((lls.length : ℝ) * threshold)
  if 1/1000000 < 2 - old_beta then
    let r := calcBetaLoop lls old_beta rN fuel old_beta 2
    (r.new_beta, old_beta, r.weights)
  else (0, old_beta, [])

/-- The orchestrator update of `step.beta` in `sample_smc`
(`step.beta, _, _ = step.calc_beta()` followed by the clamp
`if step.beta > 1.: step.beta = 1.`). -/
noncomputable def nextBeta (lls : List ℝ) (threshold beta : ℝ) (fuel : ℕ) : ℝ :=
  let nb := (calc_beta lls beta threshold fuel).1
  if 1 < nb then 1 else nb

/-- The `beta` sequence produced by the `while step.beta < 1` stage loop of
`sample_smc`, parameterised by an oracle `orc` giving the per-stage end-point
log-likelihood vectors.  Once the loop guard fails the value is frozen. -/
noncomputable def betaSeq (orc : ℕ → List ℝ) (threshold : ℝ) (fuel : ℕ) : ℕ → ℝ
  | 0 => 0
  | m+1 =>
    if betaSeq orc threshold fuel m < 1 then
      nextBeta (orc m) threshold (betaSeq orc threshold fuel m) fuel
    else betaSeq orc threshold fuel m

/-- The `check_bnd` attribute of `SMC`: `__init__` first stores the boolean
`check_bound` argument (line 145) and later rebinds the same attribute to the
compiled prior-log-density function (line 167). -/
inductive CheckBnd where
  | flag (b : Bool)
  | fn (f : List ℝ → Option ℝ)

/-- Python truthiness of the `check_bnd` attribute, as used by
`if self.check_bnd:` in `SMC.astep` (a function object is always truthy). -/
def CheckBnd.truthy : CheckBnd → Bool
  | .flag b => b
  | .fn _ => true

/-- Calling the `check_bnd` attribute (`self.check_bnd(q)`).  The result is
`none` when the compiled function returns a non-finite value
(`np.isfinite(varlogp)` fails).  Calling the boolean flag would raise
`TypeError` in Python; that case is unreachable after `SMC.__init__`
rebinds the attribute, and is modelled as `none`. -/
def CheckBnd.call : CheckBnd → List ℝ → Option ℝ
  | .fn f, q => f q
  | .flag _, _ => none

/-- Immutable configuration of an `SMC` step object. -/
structure SMCParams where
  tune_interval : ℕ
  p_acc_rate : ℝ
  llk_index : ℕ
  discrete : List Bool
  logp_forw : List ℝ → List ℝ
  check_bnd : CheckBnd

/-- Mutable state of an `SMC` step object (one modelled chain). -/
structure SMCState where
  scaling : ℝ
  n_steps : ℤ
  steps_until_tune : ℤ
  accepted : ℕ
  stage_sample : ℤ
  stage : ℤ
  beta : ℝ
  chain_previous_lpoint : List ℝ
  proposal_samples_array : List (List ℝ)

/-- The free-standing `tune` function (Muto & Beck 2008 coefficients):
`(1/9 + 8/9 * acc_rate) ** 2`. -/
noncomputable def tune (acc_rate : ℝ) : ℝ := (1/9 + 8/9 * acc_rate) ^ 2

/-- The tuning checkpoint at the top of `SMC.astep`
(`if not self.steps_until_tune and self.tune_interval:`): recompute
`scaling` and `n_steps` from the rolling acceptance rate and reset the
counters. -/
noncomputable def tuneCheckpoint (p : SMCParams) (s : SMCState) : SMCState :=
  if s.steps_until_tune = 0 ∧ p.tune_interval ≠ 0 then
    let acc_rate := (s.accepted : ℝ) / (p.tune_interval : ℝ)
    let acc_rate2 := if s.accepted = 0 then 1 / (p.tune_interval : ℝ) else acc_rate
    { s with
      scaling := tune acc_rate
      n_steps := 1 + ⌈Real.log p.p_acc_rate / Real.log (1 - acc_rate2)⌉
      steps_until_tune := (p.tune_interval : ℤ)
      accepted := 0
      stage_sample := 0 }
  else s

/-- `if not self.stage_sample: self.proposal_samples_array = self.proposal_dist(self.n_steps)`:
a fresh batch of proposal draws is installed at a sub-chain boundary.
`fresh` stands for the random draw `self.proposal_dist(self.n_steps)`. -/
def regenBatch (s : SMCState) (fresh : List (List ℝ)) : SMCState :=
  if s.stage_sample = 0 then { s with proposal_samples_array := fresh } else s

/-- State of the step object after the tuning checkpoint and batch
regeneration, i.e. just before the proposal delta is read. -/
noncomputable def astepPre (p : SMCParams) (s : SMCState) (fresh : List (List ℝ)) : SMCState :=
  regenBatch (tuneCheckpoint p s) fresh

/-- `delta = self.proposal_samples_array[self.stage_sample, :] * self.scaling`. -/
noncomputable def astepDelta (p : SMCParams) (s : SMCState) (fresh : List (List ℝ)) : List ℝ :=
  ((astepPre p s fresh).proposal_samples_array.getD (astepPre p s fresh).stage_sample.toNat []).map
    fun x => x * (astepPre p s fresh).scaling

/-- The candidate construction of `SMC.astep` (lines 197-207).  In the
mixed discrete/continuous branch the source executes
`q = q[self.discrete].astype(int)`, which replaces the candidate by the
discrete-masked subvector cast to integer. -/
noncomputable def mkCandidate (discrete : List Bool) (q0 delta : List ℝ) : List ℝ :=
  if discrete.any id then
    if discrete.all id then
      let delta2 := delta.map npRound
      let q0i := q0.map fun x => (truncInt x : ℝ)
      (List.zipWith (fun a b => a + b) q0i delta2).map fun x => (truncInt x : ℝ)
    else
      let delta2 := List.zipWith
        (fun d x => if d then ((truncInt (npRound x) : ℤ) : ℝ) else x) discrete delta
      let q := List.zipWith (fun a b => a + b) q0 delta2
      ((List.zipWith (fun d x => if d then some x else none) discrete q).filterMap id).map
        fun x => (truncInt x : ℝ)
  else List.zipWith (fun a b => a + b) q0 delta

/-- The candidate `q` computed by `SMC.astep` for the current step. -/
noncomputable def astepCandidate (p : SMCParams) (s : SMCState) (fresh : List (List ℝ))
    (q0 : List ℝ) : List ℝ :=
  mkCandidate p.discrete q0 (astepDelta p s fresh)

/-- Modelled from the spec: `metrop_select` (from
`pymc3/step_methods/arraystep.py`, not part of the sources) accepts the
candidate `q` over `q0` exactly when the log-uniform draw `logu` falls below
`min(0, mr)`, the tempered log-likelihood difference. -/
noncomputable def metrop_select (mr logu : ℝ) (q q0 : List ℝ) : List ℝ × Bool :=
  if logu < min 0 mr then (q, true) else (q0, false)

/-- The counter updates at the end of a stage->0 `SMC.astep` call:
`steps_until_tune -= 1`, `stage_sample += 1`, wrapping `stage_sample` to `0`
when it reaches `n_steps`. -/
def bumpCounters (s : SMCState) : SMCState :=
  let s2 := { s with steps_until_tune := s.steps_until_tune - 1,
                     stage_sample := s.stage_sample + 1 }
  if s2.stage_sample = s2.n_steps then { s2 with stage_sample := 0 } else s2

/-- The tempered log-likelihood difference `self.beta * (logp[self._llk_index] - l0[self._llk_index])`
for the current candidate. -/
noncomputable def astepMr (p : SMCParams) (s : SMCState) (fresh : List (List ℝ))
    (q0 : List ℝ) : ℝ :=
  (astepPre p s fresh).beta *
    ((p.logp_forw (astepCandidate p s fresh q0)).getD p.llk_index 0 -
      (astepPre p s fresh).chain_previous_lpoint.getD p.llk_index 0)

/-- The tempered Metropolis accept/reject block of `SMC.astep` (identical in
the bounds-checked and unchecked branches of the source). -/
noncomputable def astepEval (p : SMCParams) (s : SMCState) (q0 : List ℝ)
    (fresh : List (List ℝ)) (logu : ℝ) : SMCState × List ℝ × List ℝ :=
  let s2 := astepPre p s fresh
  let q := astepCandidate p s fresh q0
  let logp := p.logp_forw q
  let sel := metrop_select (astepMr p s fresh q0) logu q q0
  if sel.2 then
    (bumpCounters { s2 with accepted := s2.accepted + 1, chain_previous_lpoint := logp },
     sel.1, logp)
  else (bumpCounters s2, sel.1, s2.chain_previous_lpoint)

/-- `SMC.astep`.  `q0` is the current position, `fresh` the random proposal
batch drawn at a sub-chain boundary, `logu` the log-uniform draw consumed by
`metrop_select`.  The function is total: rejected and out-of-bounds
candidates are ordinary return paths, not errors. -/
noncomputable def astep (p : SMCParams) (s : SMCState) (q0 : List ℝ)
    (fresh : List (List ℝ)) (logu : ℝ) : SMCState × List ℝ × List ℝ :=
  if s.stage = 0 then (s, q0, p.logp_forw q0)
  else if (p.check_bnd.truthy : Bool) then
    match p.check_bnd.call (astepCandidate p s fresh q0) with
    | some _ => astepEval p s q0 fresh logu
    | none => (bumpCounters (astepPre p s fresh), q0, (astepPre p s fresh).chain_previous_lpoint)
  else astepEval p s q0 fresh logu

/-- The result of `SMC.astep` on acceptance: position and baseline replaced
by the candidate and its evaluation, acceptance counter incremented. -/
noncomputable def astepAcceptResult (p : SMCParams) (s : SMCState) (fresh : List (List ℝ))
    (q0 : List ℝ) : SMCState × List ℝ × List ℝ :=
  (bumpCounters { astepPre p s fresh with
      accepted := (astepPre p s fresh).accepted + 1,
      chain_previous_lpoint := p.logp_forw (astepCandidate p s fresh q0) },
   astepCandidate p s fresh q0, p.logp_forw (astepCandidate p s fresh q0))

/-- The result of `SMC.astep` on rejection or an out-of-bounds candidate:
previous position and baseline retained, only the step counters advance. -/
noncomputable def astepRejectResult (p : SMCParams) (s : SMCState) (fresh : List (List ℝ))
    (q0 : List ℝ) : SMCState × List ℝ × List ℝ :=
  (bumpCounters (astepPre p s fresh), q0, (astepPre p s fresh).chain_previous_lpoint)

/-- The two assignments of `SMC.__init__` to `self.check_bnd`: line 145
stores the boolean `check_bound` argument, line 167 rebinds the attribute to
the compiled prior-log-density function. -/
def smcInit (check_bound : Bool) (tune_interval : ℕ) (p_acc_rate : ℝ) (llk_index : ℕ)
    (discrete : List Bool) (lp : List ℝ → List ℝ) (compiled_bnd : List ℝ → Option ℝ) :
    SMCParams :=
  let p0 : SMCParams :=
    { tune_interval := tune_interval, p_acc_rate := p_acc_rate, llk_index := llk_index,
      discrete := discrete, logp_forw := lp, check_bnd := CheckBnd.flag check_bound }
  { p0 with check_bnd := CheckBnd.fn compiled_bnd }

/-- `np.cumsum` over a one-dimensional array, with accumulator. -/
def cumsumAux (acc : ℝ) : List ℝ → List ℝ
  | [] => []
  | x :: xs => (acc + x) :: cumsumAux (acc + x) xs

/-- `cum_dist = np.cumsum(self.weights)` from `SMC.resample`. -/
def cumsum (l : List ℝ) : List ℝ := cumsumAux 0 l

/-- The inner `while u[i] > cum_dist[j]: j += 1` loop of `SMC.resample`:
advance `j` to the first bucket whose cumulative weight reaches `x`.
Running past the end of `cum` would raise `IndexError` in Python; the
claims' hypotheses make that unreachable (the model then returns `j`). -/
noncomputable def findBucket (cum : List ℝ) (x : ℝ) (j : ℕ) : ℕ :=
  if h : j < cum.length then
    if cum.get ⟨j, h⟩ < x then findBucket cum x (j + 1) else j
  else j
termination_by cum.length - j

/-- `N_childs[j] += 1`: increment the `j`-th child count. -/
def bump : List ℕ → ℕ → List ℕ
  | [], _ => []
  | c :: cs, 0 => (c + 1) :: cs
  | c :: cs, k + 1 => c :: bump cs k

/-- The `for i in parents:` accumulation loop of `SMC.resample`, threading
the bucket cursor `j` across selection points. -/
noncomputable def countsLoop (cum : List ℝ) : List ℝ → ℕ → List ℕ → List ℕ
  | [], _, counts => counts
  | x :: xs, j, counts =>
    let j2 := findBucket cum x j
    countsLoop cum xs j2 (bump counts j2)

/-- `u = (parents + np.random.rand()) / chains`: the systematic selection
points; `u0` stands for the single uniform draw. -/
noncomputable def selPoints (n : ℕ) (u0 : ℝ) : List ℝ :=
  (List.range n).map fun (k : ℕ) => ((k : ℝ) + u0) / (n : ℝ)

/-- The child counts `N_childs` computed by `SMC.resample`. -/
noncomputable def resampleCounts (w : List ℝ) (u0 : ℝ) : List ℕ :=
  countsLoop (cumsum w) (selPoints w.length u0) 0 (List.replicate w.length 0)

/-- Modelled from the spec's words (for comparison with `resampleCounts`):
each selection point is assigned independently to the smallest
cumulative-weight bucket containing it, i.e. the scan starts from bucket 0
for every point instead of threading the cursor. -/
noncomputable def resampleCountsSpec (w : List ℝ) (u0 : ℝ) : List ℕ :=
  (selPoints w.length u0).foldl (fun acc x => bump acc (findBucket (cumsum w) x 0))
    (List.replicate w.length 0)

/-- The expansion loop of `SMC.resample`: `outindx` lists each parent index
`i` repeated `N_childs[i]` times, written into a zero-initialised array of
length `chains` (the padding models the pre-zeroed `np.zeros(chains)`). -/
def expandCounts (chains : ℕ) (counts : List ℕ) : List ℕ :=
  ((counts.enum.flatMap fun p => List.replicate p.2 p.1) ++ List.replicate chains 0).take chains

/-- `SMC.resample`: Kitagawa systematic resampling index array. -/
noncomputable def resample (w : List ℝ) (u0 : ℝ) : List ℕ :=
  expandCounts w.length (resampleCounts w u0)

/-- The normalization factor of `np.cov(..., aweights=w, bias=False)`:
`fact = w_sum - ddof * sum(w * aweights) / w_sum` with `ddof = 1` and the
array itself as `aweights`. -/
noncomputable def covFact (w : List ℝ) : ℝ := w.sum - (w.map fun x => x ^ 2).sum / w.sum

/-- Column `i` of the stacked population matrix (rows are particles). -/
def colVec (pop : List (List ℝ)) (i : ℕ) : List ℝ := pop.map fun row => row.getD i 0

/-- The weighted column average computed inside `np.cov`. -/
noncomputable def wMean (w col : List ℝ) : ℝ := (List.zipWith (fun a b => a * b) w col).sum / w.sum

/-- Entry `(i, j)` of the importance-weighted covariance of `np.cov` for a
positive normalization factor. -/
noncomputable def covEntry (pop : List (List ℝ)) (w : List ℝ) (i j : ℕ) : ℝ :=
  (List.zipWith
    (fun wk row => wk * (row.getD i 0 - wMean w (colVec pop i)) *
      (row.getD j 0 - wMean w (colVec pop j))) w pop).sum / covFact w

/-- Dimension of the parameter space (row length of the population). -/
def covDim (pop : List (List ℝ)) : ℕ := (pop.headD []).length

/-- The importance-weighted covariance matrix
`np.cov(array_population, aweights=weights, bias=False, rowvar=0)`. -/
noncomputable def covMatrix (pop : List (List ℝ)) (w : List ℝ) : List (List ℝ) :=
  (List.range (covDim pop)).map fun i => (List.range (covDim pop)).map fun j => covEntry pop w i j

/-- The condition under which `np.cov` yields non-finite entries for finite
inputs and a positive weight sum: NumPy clips a non-positive normalization
factor `fact` to `0.0` and divides by it, so every entry becomes `inf`,
`-inf` or `nan`; the source's check
`np.isnan(cov).any() or np.isinf(cov).any()` is therefore `covFact w ≤ 0`. -/
def covNonFinite (w : List ℝ) : Prop := covFact w ≤ 0

/-- `np.atleast_2d` applied to the covariance (already a matrix here). -/
def npAtleast2d (m : List (List ℝ)) : List (List ℝ):= m

/-- `SMC.calc_covariance`: compute the importance-weighted covariance and
raise `ValueError` when it contains non-finite entries. -/
noncomputable def calc_covariance (pop : List (List ℝ)) (w : List ℝ) :
    Except String (List (List ℝ)) :=
  if covFact w ≤ 0 then
    Except.error "Sample covariances not valid! Likely chains is too small!"
  else Except.ok (npAtleast2d (covMatrix pop w))

/-- Configuration surface of `sample_smc` relevant to its validation prelude
(lines 456-472).  Strings are modelled as `List Char`. -/
structure SMCConfig where
  homepath : Option (List Char)
  chains : ℕ
  cores : ℕ
  start : Option (List (List ℝ))
  likelihood_name : List Char
  deterministic_names : List (List Char)

/-- Whether `needle` is an initial block of `hay` (helper for the Python
substring test). -/
def charsEqFrom : List Char → List Char → Bool
  | [], _ => true
  | _ :: _, [] => false
  | a :: as, b :: bs => a == b && charsEqFrom as bs

/-- Python `needle in hay` on strings: contiguous substring containment. -/
def charsContains (needle : List Char) : List Char → Bool
  | [] => charsEqFrom needle []
  | b :: bs => charsEqFrom needle (b :: bs) || charsContains needle bs

/-- The validation prelude of `sample_smc` (lines 456-472), in source order:
missing `homepath`; `chains / cores` not a whole number (only checked for
`cores > 1`); a supplied `start` population whose length differs from
`chains`; and the likelihood-name test
`any(step.likelihood_name in var.name for var in model.deterministics)`,
which is a substring test. -/
def checkConfig (c : SMCConfig) : Except String Unit :=
  if c.homepath = none then
    Except.error "Argument homepath should be path to result_directory."
  else if 1 < c.cores ∧ ¬ (c.cores ∣ c.chains) then
    Except.error "chains / cores has to be a whole number!"
  else if (match c.start with | some s => s.length != c.chains | none => false : Bool) then
    Except.error "Argument start should have dicts equal the number of chains"
  else if ¬ (c.deterministic_names.any fun nm => charsContains c.likelihood_name nm) then
    Except.error "Model variables need to contain the likelihood name"
  else Except.ok ()

/-- The amended configuration-error condition actually implemented by
`sample_smc`: divisibility is only enforced for `cores > 1` and the
likelihood name need only occur as a substring of some deterministic
variable name. -/
def configAmendedError (c : SMCConfig) : Prop :=
  c.homepath = none ∨ (1 < c.cores ∧ ¬ (c.cores ∣ c.chains)) ∨
    (∃ s, c.start = some s ∧ s.length ≠ c.chains) ∨
    (∀ nm ∈ c.deterministic_names, charsContains c.likelihood_name nm = false)

/-- The configuration-error condition as the claim states it: exact
membership of the likelihood name among the deterministic names, and
unconditional divisibility. -/
def configClaimedError (c : SMCConfig) : Prop :=
  c.homepath = none ∨ ¬ (c.cores ∣ c.chains) ∨
    (∃ s, c.start = some s ∧ s.length ≠ c.chains) ∨
    c.likelihood_name ∉ c.deterministic_names

/-- Lines 463-468 of `sample_smc`: a supplied `start` population replaces
`step.population`. -/
def populationAfterStart (population : List (List ℝ)) (start : Option (List (List ℝ))) :
    List (List ℝ) :=
  match start with
  | some s => s
  | none => population

/-- Line 493 of `sample_smc`:
`step.population = _initial_population(samples, chains, model, step.vars)`
unconditionally replaces the population with fresh prior draws. -/
def populationAfterInit (_population : List (List ℝ)) (initial : List (List ℝ)) :
    List (List ℝ) :=
  initial

/-- The stage-0 population actually used by the sampling loop of
`sample_smc`: the composition of the `start` handling (lines 463-468) and
the unconditional overwrite (line 493). -/
def stage0Population (population0 : List (List ℝ)) (start : Option (List (List ℝ)))
    (initial : List (List ℝ)) : List (List ℝ) :=
  populationAfterInit (populationAfterStart population0 start) initial

/-- C10: the `check_bound` constructor argument has no effect on sampling
behaviour: `SMC.__init__` rebinds the `check_bnd` attribute from the boolean
flag to the compiled prior-log-density function, so for every state and
random stream `astep` gives identical results for `check_bound=True` and
`check_bound=False`. -/
theorem check_bound_flag_no_effect (b1 b2 : Bool) (ti : ℕ) (pa : ℝ) (li : ℕ)
    (disc : List Bool) (lp : List ℝ → List ℝ) (cb : List ℝ → Option ℝ)
    (s : SMCState) (q0 : List ℝ) (fresh : List (List ℝ)) (logu : ℝ) :
    (smcInit b1 ti pa li disc lp cb).check_bnd = CheckBnd.fn cb ∧
    astep (smcInit b1 ti pa li disc lp cb) s q0 fresh logu =
      astep (smcInit b2 ti pa li disc lp cb) s q0 fresh logu :=
  ⟨rfl, rfl⟩

/-- C9 (code-bug evidence): `sample_smc` line 493 unconditionally overwrites
`step.population` with fresh prior draws, so a supplied `start` population
(here `[[1]]`, with `chains = 1`) is discarded in favour of the prior draws
`[[2]]`. -/
theorem stage0Population_ignores_start :
    stage0Population [[0]] (some [[1]]) [[2]] = [[2]] ∧
      ([[2]] : List (List ℝ)) ≠ [[1]] := by
  refine ⟨rfl, ?_⟩
  intro h
  have := List.head_eq_of_cons_eq h
  have h2 : (2 : ℝ) = 1 := by
    have := List.head_eq_of_cons_eq this
    exact this
  norm_num at h2

/-- C4 (code-bug evidence): in the mixed discrete/continuous branch the
source's `q = q[self.discrete].astype(int)` (line 205) collapses the
candidate to the discrete-masked subvector: with mask `[True, False]`,
position `[0., 0.]` and scaled delta `[0.4, 0.7]` the candidate is `[0]`,
of length 1 instead of 2, and the continuous coordinate is lost. -/
theorem mkCandidate_mixed_collapse :
    mkCandidate [true, false] [0, 0] [2/5, 7/10] = [0] ∧
      (mkCandidate [true, false] [0, 0] [2/5, 7/10]).length ≠ ([0, 0] : List ℝ).length := by
  have h1 : npRound (2/5 : ℝ) = 0 := by unfold npRound; norm_num
  have h2 : truncInt (0 : ℝ) = 0 := by unfold truncInt; norm_num
  have h3 : mkCandidate [true, false] [0, 0] [2/5, 7/10] = [0] := by
    unfold mkCandidate
    simp [h1, h2]
  exact ⟨h3, by rw [h3]; simp⟩

/-- C8 (counterexample): the likelihood-name check of `sample_smc` is a
substring test, not exact membership: with likelihood name `"l"` and a
single deterministic variable named `"xl"` the name is absent from the
declared deterministic outputs, yet no configuration error is raised. -/
theorem checkConfig_substring_counterexample :
    checkConfig { homepath := some ['h'], chains := 1, cores := 1, start := none,
                  likelihood_name := ['l'], deterministic_names := [['x', 'l']] }
      = Except.ok () ∧
    (['l'] : List Char) ∉ ([['x', 'l']] : List (List Char)) := by
  exact ⟨rfl, by decide⟩

/-- C8 (amended): the validation prelude of `sample_smc` raises a
configuration error, before any sampling begins, exactly when `homepath` is
missing, or `cores > 1` and `chains` is not divisible by `cores`, or a
supplied start population has length different from `chains`, or the
likelihood output name occurs as a substring of no declared deterministic
name; when none of these holds no error is raised. -/
theorem checkConfig_error_iff (c : SMCConfig) :
    ((∃ msg, checkConfig c = Except.error msg) ↔ configAmendedError c) ∧
    (¬ configAmendedError c → checkConfig c = Except.ok ()) := by
  have hmain : (∃ msg, checkConfig c = Except.error msg) ↔ configAmendedError c := by
    constructor
    · rintro ⟨msg, hmsg⟩
      unfold checkConfig at hmsg
      split_ifs at hmsg with h1 h2 h3 h4
      · exact Or.inl h1
      · exact Or.inr (Or.inl h2)
      · refine Or.inr (Or.inr (Or.inl ?_))
        cases hs : c.start with
        | none => rw [hs] at h3; exact absurd h3 (by simp)
        | some s =>
          rw [hs] at h3
          exact ⟨s, rfl, by simpa using h3⟩
      · refine Or.inr (Or.inr (Or.inr ?_))
        intro nm hnm
        by_contra hc
        rw [Bool.not_eq_false] at hc
        exact h4 (List.any_eq_true.mpr ⟨nm, hnm, hc⟩)
    · intro h
      unfold checkConfig
      split_ifs with h1 h2 h3 h4
      · exact ⟨_, rfl⟩
      · exact ⟨_, rfl⟩
      · exact ⟨_, rfl⟩
      · exfalso
        rcases h with h | h | h | h
        · exact h1 h
        · exact h2 h
        · obtain ⟨s, hs, hlen⟩ := h
          rw [hs] at h3
          exact h3 (by simpa using hlen)
        · obtain ⟨nm, hnm, hcc⟩ := List.any_eq_true.mp h4
          have hfalse := h nm hnm
          rw [hfalse] at hcc
          exact Bool.false_ne_true hcc
      · exact ⟨_, rfl⟩
  refine ⟨hmain, fun hne => ?_⟩
  cases hcc : checkConfig c with
  | error a => exact absurd (hmain.mp ⟨a, hcc⟩) hne
  | ok v => cases v; rfl

/-- C7: `SMC.calc_covariance` raises `ValueError` if and only if the
importance-weighted covariance has non-finite entries (which, for finite
inputs and normalized weights, happens exactly when the `np.cov`
normalization factor is non-positive); when all entries are finite it
returns the weighted covariance matrix unmodified (as an at-least-2-D
matrix), never silently recovering the degenerate case. -/
theorem calc_covariance_error_iff (pop : List (List ℝ)) (w : List ℝ)
    (_hsum : w.sum = 1) (_hnn : ∀ x ∈ w, 0 ≤ x) :
    ((∃ msg, calc_covariance pop w = Except.error msg) ↔ covNonFinite w) ∧
    (¬ covNonFinite w → calc_covariance pop w = Except.ok (npAtleast2d (covMatrix pop w))) := by
  unfold calc_covariance covNonFinite
  split_ifs with h
  · refine ⟨⟨fun _ => h, fun _ => ⟨_, rfl⟩⟩, fun hc => absurd h hc⟩
  · refine ⟨⟨?_, fun hcov => absurd hcov h⟩, fun _ => rfl⟩
    rintro ⟨msg, hmsg⟩
    exact hmsg.elim

/-- C7 witness: the theorem applied to the population `[[0], [1]]` with
uniform weights `[1/2, 1/2]`. -/
theorem calc_covariance_error_iff_witness :
    ((∃ msg, calc_covariance [[0], [1]] [1/2, 1/2] = Except.error msg) ↔
      covNonFinite [1/2, 1/2]) ∧
    (¬ covNonFinite [1/2, 1/2] →
      calc_covariance [[0], [1]] [1/2, 1/2] =
        Except.ok (npAtleast2d (covMatrix [[0], [1]] [1/2, 1/2]))) :=
  calc_covariance_error_iff [[0], [1]] [1/2, 1/2] (by norm_num)
    (by intro x hx; simp only [List.mem_cons, List.not_mem_nil, or_false] at hx
        rcases hx with h | h <;> norm_num [h])

/-- C6: at a tuning checkpoint (`steps_until_tune = 0` with a positive
`tune_interval`), with `acc_rate = accepted / tune_interval`: the new
scaling is `tune(acc_rate) = ((1/9) + (8/9) * acc_rate)^2` (so `tune 0 =
(1/9)^2`, `tune 1 = 1`, and `tune` is strictly increasing on `[0, 1]`), the
new `n_steps` is `1 + ceil(log(p_acc_rate) / log(1 - acc_rate))` with
`acc_rate` replaced by `1 / tune_interval` when no steps were accepted, and
`steps_until_tune`, `accepted` and `stage_sample` are reset. -/
theorem tuneCheckpoint_props (p : SMCParams) (s : SMCState)
    (h0 : s.steps_until_tune = 0) (hti : 0 < p.tune_interval) :
    (tuneCheckpoint p s).scaling = tune ((s.accepted : ℝ) / (p.tune_interval : ℝ)) ∧
    tune ((s.accepted : ℝ) / (p.tune_interval : ℝ)) =
      (1/9 + 8/9 * ((s.accepted : ℝ) / (p.tune_interval : ℝ))) ^ 2 ∧
    (tuneCheckpoint p s).n_steps =
      1 + ⌈Real.log p.p_acc_rate /
        Real.log (1 - (if s.accepted = 0 then 1 / (p.tune_interval : ℝ)
          else (s.accepted : ℝ) / (p.tune_interval : ℝ)))⌉ ∧
    (tuneCheckpoint p s).steps_until_tune = (p.tune_interval : ℤ) ∧
    (tuneCheckpoint p s).accepted = 0 ∧
    (tuneCheckpoint p s).stage_sample = 0 ∧
    tune 0 = (1/9) ^ 2 ∧ tune 1 = 1 ∧ StrictMonoOn tune (Set.Icc (0 : ℝ) 1) := by
  have hcond : s.steps_until_tune = 0 ∧ p.tune_interval ≠ 0 := ⟨h0, hti.ne'⟩
  unfold tuneCheckpoint
  rw [if_pos hcond]
  refine ⟨rfl, rfl, rfl, rfl, rfl, rfl, by norm_num [tune], by norm_num [tune], ?_⟩
  intro x hx y hy hxy
  unfold tune
  nlinarith [hx.1, hy.1, hxy]

/-- C6 witness: the theorem applied to a concrete checkpoint state with
`tune_interval = 2` and one acceptance. -/
theorem tuneCheckpoint_props_witness :
    (tuneCheckpoint
        { tune_interval := 2, p_acc_rate := 1/2, llk_index := 0, discrete := [],
          logp_forw := fun _ => [], check_bnd := CheckBnd.flag true }
        { scaling := 1, n_steps := 3, steps_until_tune := 0, accepted := 1,
          stage_sample := 2, stage := 1, beta := 1/2, chain_previous_lpoint := [],
          proposal_samples_array := [] }).scaling = tune (((1 : ℕ) : ℝ) / ((2 : ℕ) : ℝ)) ∧
    tune (((1 : ℕ) : ℝ) / ((2 : ℕ) : ℝ)) =
      (1/9 + 8/9 * (((1 : ℕ) : ℝ) / ((2 : ℕ) : ℝ))) ^ 2 ∧
    (tuneCheckpoint
        { tune_interval := 2, p_acc_rate := 1/2, llk_index := 0, discrete := [],
          logp_forw := fun _ => [], check_bnd := CheckBnd.flag true }
        { scaling := 1, n_steps := 3, steps_until_tune := 0, accepted := 1,
          stage_sample := 2, stage := 1, beta := 1/2, chain_previous_lpoint := [],
          proposal_samples_array := [] }).n_steps =
      1 + ⌈Real.log (1/2) /
        Real.log (1 - (if (1 : ℕ) = 0 then 1 / ((2 : ℕ) : ℝ)
          else ((1 : ℕ) : ℝ) / ((2 : ℕ) : ℝ)))⌉ ∧
    (tuneCheckpoint
        { tune_interval := 2, p_acc_rate := 1/2, llk_index := 0, discrete := [],
          logp_forw := fun _ => [], check_bnd := CheckBnd.flag true }
        { scaling := 1, n_steps := 3, steps_until_tune := 0, accepted := 1,
          stage_sample := 2, stage := 1, beta := 1/2, chain_previous_lpoint := [],
          proposal_samples_array := [] }).steps_until_tune = ((2 : ℕ) : ℤ) ∧
    (tuneCheckpoint
        { tune_interval := 2, p_acc_rate := 1/2, llk_index := 0, discrete := [],
          logp_forw := fun _ => [], check_bnd := CheckBnd.flag true }
        { scaling := 1, n_steps := 3, steps_until_tune := 0, accepted := 1,
          stage_sample := 2, stage := 1, beta := 1/2, chain_previous_lpoint := [],
          proposal_samples_array := [] }).accepted = 0 ∧
    (tuneCheckpoint
        { tune_interval := 2, p_acc_rate := 1/2, llk_index := 0, discrete := [],
          logp_forw := fun _ => [], check_bnd := CheckBnd.flag true }
        { scaling := 1, n_steps := 3, steps_until_tune := 0, accepted := 1,
          stage_sample := 2, stage := 1, beta := 1/2, chain_previous_lpoint := [],
          proposal_samples_array := [] }).stage_sample = 0 ∧
    tune 0 = (1/9) ^ 2 ∧ tune 1 = 1 ∧ StrictMonoOn tune (Set.Icc (0 : ℝ) 1) :=
  tuneCheckpoint_props
    { tune_interval := 2, p_acc_rate := 1/2, llk_index := 0, discrete := [],
      logp_forw := fun _ => [], check_bnd := CheckBnd.flag true }
    { scaling := 1, n_steps := 3, steps_until_tune := 0, accepted := 1,
      stage_sample := 2, stage := 1, beta := 1/2, chain_previous_lpoint := [],
      proposal_samples_array := [] } rfl (by norm_num)

/-- The accept/reject block of `SMC.astep` as a case split on the
log-uniform draw versus the tempered log-likelihood difference. -/
theorem astepEval_eq (p : SMCParams) (s : SMCState) (q0 : List ℝ)
    (fresh : List (List ℝ)) (logu : ℝ) :
    astepEval p s q0 fresh logu =
      if logu < min 0 (astepMr p s fresh q0) then astepAcceptResult p s fresh q0
      else astepRejectResult p s fresh q0 := by
  unfold astepEval metrop_select astepAcceptResult astepRejectResult
  by_cases h : logu < min 0 (astepMr p s fresh q0)
  · simp [h]
  · simp [h]

/-- C2: at stage > 0 with the compiled bounds function installed, a
candidate whose bounds check is finite is accepted exactly when the
log-uniform draw falls below `beta * (ll_candidate - ll_baseline)`; on
acceptance the position and baseline are replaced by the candidate and its
evaluation and the acceptance counter increments; on rejection and on a
non-finite bounds check the previous position and baseline are retained
(only the step counters advance).  All paths are ordinary returns of the
total function `astep`: no error is raised. -/
theorem astep_accept_reject (p : SMCParams) (s : SMCState) (q0 : List ℝ)
    (fresh : List (List ℝ)) (logu : ℝ) (f : List ℝ → Option ℝ)
    (hstage : 0 < s.stage) (hcb : p.check_bnd = CheckBnd.fn f) (hlogu : logu < 0) :
    ((f (astepCandidate p s fresh q0)).isSome →
      ((logu < astepMr p s fresh q0 →
          astep p s q0 fresh logu = astepAcceptResult p s fresh q0) ∧
        (¬ logu < astepMr p s fresh q0 →
          astep p s q0 fresh logu = astepRejectResult p s fresh q0))) ∧
    (f (astepCandidate p s fresh q0) = none →
      astep p s q0 fresh logu = astepRejectResult p s fresh q0) := by
  have hstage' : ¬ s.stage = 0 := by omega
  constructor
  · intro hsome
    obtain ⟨v, hv⟩ := Option.isSome_iff_exists.mp hsome
    constructor
    · intro hacc
      unfold astep
      rw [if_neg hstage', hcb]
      simp only [CheckBnd.truthy, CheckBnd.call, if_true]
      rw [hv]
      rw [astepEval_eq, if_pos (lt_min hlogu hacc)]
    · intro hrej
      unfold astep
      rw [if_neg hstage', hcb]
      simp only [CheckBnd.truthy, CheckBnd.call, if_true]
      rw [hv]
      rw [astepEval_eq, if_neg (fun hm => hrej ((lt_min_iff.mp hm).2))]
  · intro hnone
    unfold astep
    rw [if_neg hstage', hcb]
    simp only [CheckBnd.truthy, CheckBnd.call, if_true]
    rw [hnone]
    rfl

/-- C2 witness: the theorem applied to a concrete stage-1 state with
compiled bounds function `fun _ => some 1`, evaluator `fun _ => [5]`,
baseline `[3]` and log-uniform draw `-1`. -/
theorem astep_accept_reject_witness :
    (((fun _ => some (1 : ℝ))
        (astepCandidate (smcInit true 2 (1/2) 0 [false] (fun _ => [(5 : ℝ)]) (fun _ => some (1 : ℝ)))
          { scaling := 1, n_steps := 2, steps_until_tune := 3, accepted := 0, stage_sample := 1,
            stage := 1, beta := 1/2, chain_previous_lpoint := [3],
            proposal_samples_array := [[0], [0]] } [[0], [0]] [4])).isSome →
      (((-1 : ℝ) < astepMr (smcInit true 2 (1/2) 0 [false] (fun _ => [(5 : ℝ)]) (fun _ => some (1 : ℝ)))
          { scaling := 1, n_steps := 2, steps_until_tune := 3, accepted := 0, stage_sample := 1,
            stage := 1, beta := 1/2, chain_previous_lpoint := [3],
            proposal_samples_array := [[0], [0]] } [[0], [0]] [4] →
          astep (smcInit true 2 (1/2) 0 [false] (fun _ => [(5 : ℝ)]) (fun _ => some (1 : ℝ)))
            { scaling := 1, n_steps := 2, steps_until_tune := 3, accepted := 0, stage_sample := 1,
              stage := 1, beta := 1/2, chain_previous_lpoint := [3],
              proposal_samples_array := [[0], [0]] } [4] [[0], [0]] (-1) =
          astepAcceptResult (smcInit true 2 (1/2) 0 [false] (fun _ => [(5 : ℝ)]) (fun _ => some (1 : ℝ)))
            { scaling := 1, n_steps := 2, steps_until_tune := 3, accepted := 0, stage_sample := 1,
              stage := 1, beta := 1/2, chain_previous_lpoint := [3],
              proposal_samples_array := [[0], [0]] } [[0], [0]] [4]) ∧
        (¬ (-1 : ℝ) < astepMr (smcInit true 2 (1/2) 0 [false] (fun _ => [(5 : ℝ)]) (fun _ => some (1 : ℝ)))
          { scaling := 1, n_steps := 2, steps_until_tune := 3, accepted := 0, stage_sample := 1,
            stage := 1, beta := 1/2, chain_previous_lpoint := [3],
            proposal_samples_array := [[0], [0]] } [[0], [0]] [4] →
          astep (smcInit true 2 (1/2) 0 [false] (fun _ => [(5 : ℝ)]) (fun _ => some (1 : ℝ)))
            { scaling := 1, n_steps := 2, steps_until_tune := 3, accepted := 0, stage_sample := 1,
              stage := 1, beta := 1/2, chain_previous_lpoint := [3],
              proposal_samples_array := [[0], [0]] } [4] [[0], [0]] (-1) =
          astepRejectResult (smcInit true 2 (1/2) 0 [false] (fun _ => [(5 : ℝ)]) (fun _ => some (1 : ℝ)))
            { scaling := 1, n_steps := 2, steps_until_tune := 3, accepted := 0, stage_sample := 1,
              stage := 1, beta := 1/2, chain_previous_lpoint := [3],
              proposal_samples_array := [[0], [0]] } [[0], [0]] [4]))) ∧
    ((fun _ => some (1 : ℝ))
        (astepCandidate (smcInit true 2 (1/2) 0 [false] (fun _ => [(5 : ℝ)]) (fun _ => some (1 : ℝ)))
          { scaling := 1, n_steps := 2, steps_until_tune := 3, accepted := 0, stage_sample := 1,
            stage := 1, beta := 1/2, chain_previous_lpoint := [3],
            proposal_samples_array := [[0], [0]] } [[0], [0]] [4]) = none →
      astep (smcInit true 2 (1/2) 0 [false] (fun _ => [(5 : ℝ)]) (fun _ => some (1 : ℝ)))
        { scaling := 1, n_steps := 2, steps_until_tune := 3, accepted := 0, stage_sample := 1,
          stage := 1, beta := 1/2, chain_previous_lpoint := [3],
          proposal_samples_array := [[0], [0]] } [4] [[0], [0]] (-1) =
      astepRejectResult (smcInit true 2 (1/2) 0 [false] (fun _ => [(5 : ℝ)]) (fun _ => some (1 : ℝ)))
        { scaling := 1, n_steps := 2, steps_until_tune := 3, accepted := 0, stage_sample := 1,
          stage := 1, beta := 1/2, chain_previous_lpoint := [3],
          proposal_samples_array := [[0], [0]] } [[0], [0]] [4]) :=
  astep_accept_reject
    (smcInit true 2 (1/2) 0 [false] (fun _ => [(5 : ℝ)]) (fun _ => some (1 : ℝ)))
    { scaling := 1, n_steps := 2, steps_until_tune := 3, accepted := 0, stage_sample := 1,
      stage := 1, beta := 1/2, chain_previous_lpoint := [3],
      proposal_samples_array := [[0], [0]] } [4] [[0], [0]] (-1) (fun _ => some (1 : ℝ))
    (by norm_num) rfl (by norm_num)

/-- Unnormalized weights are strictly positive (they are exponentials). -/
theorem weightsUn_pos (lls : List ℝ) (ob nb : ℝ) :
    ∀ x ∈ weightsUn lls ob nb, 0 < x := by
  intro x hx
  obtain ⟨l, _, rfl⟩ := List.mem_map.mp hx
  exact Real.exp_pos _

/-- The sum of the unnormalized weights is strictly positive for a nonempty
likelihood vector. -/
theorem weightsUn_sum_pos (lls : List ℝ) (ob nb : ℝ) (hne : lls ≠ []) :
    0 < (weightsUn lls ob nb).sum := by
  apply List.sum_pos
  · exact weightsUn_pos lls ob nb
  · simpa [weightsUn] using hne

/-- Normalized weights are non-negative. -/
theorem calcWeights_nonneg (lls : List ℝ) (ob nb : ℝ) (hne : lls ≠ []) :
    ∀ x ∈ calcWeights lls ob nb, 0 ≤ x := by
  intro x hx
  obtain ⟨w, hw, rfl⟩ := List.mem_map.mp hx
  exact div_nonneg (weightsUn_pos lls ob nb w hw).le (weightsUn_sum_pos lls ob nb hne).le

/-- Normalized weights sum to one. -/
theorem calcWeights_sum (lls : List ℝ) (ob nb : ℝ) (hne : lls ≠ []) :
    (calcWeights lls ob nb).sum = 1 := by
  unfold calcWeights
  have hpos := weightsUn_sum_pos lls ob nb hne
  have hrw : (fun x => x / (weightsUn lls ob nb).sum) =
      fun x => x * ((weightsUn lls ob nb).sum)⁻¹ := by
    funext x; rw [div_eq_mul_inv]
  rw [hrw]
  have hmul : ((weightsUn lls ob nb).map fun x => x * ((weightsUn lls ob nb).sum)⁻¹).sum =
      ((weightsUn lls ob nb).map id).sum * ((weightsUn lls ob nb).sum)⁻¹ :=
    List.sum_map_mul_right (weightsUn lls ob nb) id ((weightsUn lls ob nb).sum)⁻¹
  rw [hmul, List.map_id]
  exact mul_inv_cancel₀ hpos.ne'

/-- Postcondition of the bisection loop: the returned weights are the
normalized weights of the returned `new_beta`, and on exit either the ESS
hit the target exactly or the final bracket is no wider than `1e-6`. -/
theorem calcBetaLoop_post (lls : List ℝ) (ob : ℝ) (rN : ℤ) :
    ∀ (fuel : ℕ) (low up : ℝ), up - low ≤ 1/1000000 * 2 ^ fuel →
    (calcBetaLoop lls ob rN fuel low up).weights =
      calcWeights lls ob (calcBetaLoop lls ob rN fuel low up).new_beta ∧
    (essInt (calcBetaLoop lls ob rN fuel low up).weights = rN ∨
      (calcBetaLoop lls ob rN fuel low up).up - (calcBetaLoop lls ob rN fuel low up).low ≤
        1/1000000) := by
  intro fuel
  induction fuel with
  | zero =>
    intro low up h
    constructor
    · simp [calcBetaLoop]
    · right
      simp only [calcBetaLoop]
      simpa using h
  | succ fuel ih =>
    intro low up h
    simp only [calcBetaLoop]
    by_cases he : essInt (calcWeights lls ob ((low + up) / 2)) = rN
    · simp [he]
    · rw [if_neg he]
      by_cases hlt : essInt (calcWeights lls ob ((low + up) / 2)) < rN
      · simp only [if_pos hlt]
        by_cases hw : 1/1000000 < (low + up) / 2 - low
        · rw [if_pos hw]
          apply ih
          rw [pow_succ] at h
          linarith
        · rw [if_neg hw]
          push_neg at hw
          exact ⟨rfl, Or.inr (by simpa using hw)⟩
      · simp only [if_neg hlt]
        by_cases hw : 1/1000000 < up - (low + up) / 2
        · rw [if_pos hw]
          apply ih
          rw [pow_succ] at h
          linarith
        · rw [if_neg hw]
          push_neg at hw
          exact ⟨rfl, Or.inr (by simpa using hw)⟩

/-- Every `new_beta` returned by the bisection loop lies strictly between
`low + 5e-7` and `up` whenever the initial bracket is wider than `1e-6`. -/
theorem calcBetaLoop_newBeta_bounds (lls : List ℝ) (ob : ℝ) (rN : ℤ) :
    ∀ (fuel : ℕ) (low up : ℝ), 1/1000000 < up - low →
      low + 1/2000000 < (calcBetaLoop lls ob rN fuel low up).new_beta ∧
      (calcBetaLoop lls ob rN fuel low up).new_beta < up := by
  intro fuel
  induction fuel with
  | zero =>
    intro low up h
    simp only [calcBetaLoop]
    constructor <;> [linarith; linarith]
  | succ fuel ih =>
    intro low up h
    simp only [calcBetaLoop]
    by_cases he : essInt (calcWeights lls ob ((low + up) / 2)) = rN
    · simp only [if_pos he]
      constructor <;> [linarith; linarith]
    · rw [if_neg he]
      by_cases hlt : essInt (calcWeights lls ob ((low + up) / 2)) < rN
      · simp only [if_pos hlt]
        by_cases hw : 1/1000000 < (low + up) / 2 - low
        · rw [if_pos hw]
          have hres := ih low ((low + up) / 2) hw
          constructor <;> [linarith; linarith]
        · rw [if_neg hw]
          constructor <;> [linarith; linarith]
      · simp only [if_neg hlt]
        by_cases hw : 1/1000000 < up - (low + up) / 2
        · rw [if_pos hw]
          have hres := ih ((low + up) / 2) up hw
          constructor <;> [linarith; linarith]
        · rw [if_neg hw]
          constructor <;> [linarith; linarith]

/-- For `old_beta < 1` the bisection loop runs and `calc_beta` returns its
result. -/
theorem calc_beta_eq_loop (lls : List ℝ) (old_beta threshold : ℝ) (fuel : ℕ)
    (h1 : old_beta < 1) :
    calc_beta lls old_beta threshold fuel =
      ((calcBetaLoop lls old_beta (truncInt ((lls.length : ℝ) * threshold)) fuel old_beta
          2).new_beta,
       old_beta,
       (calcBetaLoop lls old_beta (truncInt ((lls.length : ℝ) * threshold)) fuel old_beta
          2).weights) := by
  unfold calc_beta
  rw [if_pos (by linarith)]

/-- C1 (amended): for `old_beta ∈ [0, 1)`, a nonempty likelihood vector and
`threshold ∈ (0, 1)` (with enough fuel for the halving bisection), the
returned weights are non-negative and sum to 1, and on return either
`ESS = floor(1 / sum(w^2))` equals the target `int(chains * threshold)`
(truncation, not rounding) exactly, or the final bisection bracket width is
at most `1e-6`. -/
theorem calc_beta_weights_ess (lls : List ℝ) (old_beta threshold : ℝ) (fuel : ℕ)
    (hne : lls ≠ []) (_h0 : 0 ≤ old_beta) (h1 : old_beta < 1)
    (_ht0 : 0 < threshold) (_ht1 : threshold < 1)
    (hfuel : 2 - old_beta ≤ 1/1000000 * 2 ^ fuel) :
    (∀ x ∈ (calc_beta lls old_beta threshold fuel).2.2, 0 ≤ x) ∧
    (calc_beta lls old_beta threshold fuel).2.2.sum = 1 ∧
    (essInt (calcBetaLoop lls old_beta (truncInt ((lls.length : ℝ) * threshold)) fuel old_beta
          2).weights = truncInt ((lls.length : ℝ) * threshold) ∨
      (calcBetaLoop lls old_beta (truncInt ((lls.length : ℝ) * threshold)) fuel old_beta 2).up -
        (calcBetaLoop lls old_beta (truncInt ((lls.length : ℝ) * threshold)) fuel old_beta
          2).low ≤ 1/1000000) := by
  have hpost := calcBetaLoop_post lls old_beta (truncInt ((lls.length : ℝ) * threshold)) fuel
    old_beta 2 hfuel
  rw [calc_beta_eq_loop lls old_beta threshold fuel h1]
  refine ⟨?_, ?_, hpost.2⟩
  · simp only
    rw [hpost.1]
    exact calcWeights_nonneg lls old_beta _ hne
  · simp only
    rw [hpost.1]
    exact calcWeights_sum lls old_beta _ hne

/-- C1 witness: the amended theorem applied to `lls = [0]`, `old_beta = 0`,
`threshold = 1/2`, `fuel = 21`. -/
theorem calc_beta_weights_ess_witness :
    (∀ x ∈ (calc_beta [(0 : ℝ)] 0 (1/2) 21).2.2, 0 ≤ x) ∧
    (calc_beta [(0 : ℝ)] 0 (1/2) 21).2.2.sum = 1 ∧
    (essInt (calcBetaLoop [(0 : ℝ)] 0 (truncInt (((List.length [(0 : ℝ)]) : ℝ) * (1/2))) 21 0
          2).weights = truncInt (((List.length [(0 : ℝ)]) : ℝ) * (1/2)) ∨
      (calcBetaLoop [(0 : ℝ)] 0 (truncInt (((List.length [(0 : ℝ)]) : ℝ) * (1/2))) 21 0 2).up -
        (calcBetaLoop [(0 : ℝ)] 0 (truncInt (((List.length [(0 : ℝ)]) : ℝ) * (1/2))) 21 0
          2).low ≤ 1/1000000) :=
  calc_beta_weights_ess [(0 : ℝ)] 0 (1/2) 21 (by simp) le_rfl (by norm_num) (by norm_num)
    (by norm_num) (by norm_num)

/-- C1 (counterexample to the claim as stated): for `old_beta = 0`,
likelihoods `[0, -100]` (`chains = 2`) and `threshold = 0.9`, the bisection
breaks at the first midpoint `new_beta = 1` with `ESS = 1`, which equals the
code's target `int(2 * 0.9) = 1` but not `round(2 * 0.9) = 2`, and the
bracket `[0, 2]` has width `2`, not below `1e-6`: the claim's disjunction
with `round` fails. -/
theorem calc_beta_round_counterexample :
    essInt (calcBetaLoop [(0 : ℝ), -100] 0
        (truncInt (((List.length [(0 : ℝ), -100]) : ℝ) * (9/10))) 21 0 2).weights ≠
      round (((List.length [(0 : ℝ), -100]) : ℝ) * (9/10)) ∧
    ¬ ((calcBetaLoop [(0 : ℝ), -100] 0
          (truncInt (((List.length [(0 : ℝ), -100]) : ℝ) * (9/10))) 21 0 2).up -
        (calcBetaLoop [(0 : ℝ), -100] 0
          (truncInt (((List.length [(0 : ℝ), -100]) : ℝ) * (9/10))) 21 0 2).low
        < 1/1000000) := by
  have ht0 : 0 < Real.exp (-100) := Real.exp_pos _
  have ht1 : Real.exp (-100) < 1 := Real.exp_lt_one_iff.mpr (by norm_num)
  have hmax : npMax [(0 : ℝ), -100] = 0 := by norm_num [npMax]
  have hwun : weightsUn [(0 : ℝ), -100] 0 1 = [1, Real.exp (-100)] := by
    unfold weightsUn
    rw [hmax]
    norm_num [Real.exp_zero]
  have hw : calcWeights [(0 : ℝ), -100] 0 1 =
      [1 / (1 + Real.exp (-100)), Real.exp (-100) / (1 + Real.exp (-100))] := by
    unfold calcWeights
    rw [hwun]
    simp
  have hsq : ((calcWeights [(0 : ℝ), -100] 0 1).map fun x => x ^ 2).sum =
      (1 + Real.exp (-100) ^ 2) / (1 + Real.exp (-100)) ^ 2 := by
    rw [hw]
    simp only [List.map_cons, List.map_nil, List.sum_cons, List.sum_nil, add_zero]
    rw [div_pow, div_pow]
    rw [div_add_div_same]
    norm_num
  have hval : (1 : ℝ) / (((calcWeights [(0 : ℝ), -100] 0 1).map fun x => x ^ 2).sum) =
      (1 + Real.exp (-100)) ^ 2 / (1 + Real.exp (-100) ^ 2) := by
    rw [hsq, one_div_div]
  have hsqpos : (0 : ℝ) < 1 + Real.exp (-100) ^ 2 := by positivity
  have h1le : (1 : ℝ) ≤ (1 + Real.exp (-100)) ^ 2 / (1 + Real.exp (-100) ^ 2) := by
    rw [le_div_iff₀ hsqpos]
    nlinarith
  have h2lt : (1 + Real.exp (-100)) ^ 2 / (1 + Real.exp (-100) ^ 2) < 2 := by
    rw [div_lt_iff₀ hsqpos]
    nlinarith [sq_nonneg (1 - Real.exp (-100))]
  have hess : essInt (calcWeights [(0 : ℝ), -100] 0 1) = 1 := by
    unfold essInt truncInt
    rw [hval]
    rw [if_pos (by positivity)]
    apply Int.floor_eq_iff.mpr
    constructor
    · exact_mod_cast h1le
    · push_cast
      linarith
  have hrN : truncInt (((List.length [(0 : ℝ), -100]) : ℝ) * (9/10)) = 1 := by
    unfold truncInt
    norm_num
  have hloop : calcBetaLoop [(0 : ℝ), -100] 0
      (truncInt (((List.length [(0 : ℝ), -100]) : ℝ) * (9/10))) 21 0 2 =
      ⟨1, calcWeights [(0 : ℝ), -100] 0 1, 0, 2⟩ := by
    rw [hrN]
    rw [show (21 : ℕ) = 20 + 1 from rfl]
    simp only [calcBetaLoop]
    norm_num [hess]
  rw [hloop]
  have hround : round (((List.length [(0 : ℝ), -100]) : ℝ) * (9/10)) = 2 := by
    rw [round_eq]
    norm_num
  rw [hround]
  constructor
  · rw [show (⟨1, calcWeights [(0 : ℝ), -100] 0 1, 0, 2⟩ : BetaLoopResult).weights =
        calcWeights [(0 : ℝ), -100] 0 1 from rfl]
    rw [hess]
    norm_num
  · norm_num

/-- The bisection always moves strictly upward: `calc_beta` returns a
`new_beta` more than `5e-7` above `old_beta` whenever `old_beta < 1`. -/
theorem calc_beta_newBeta_gt (lls : List ℝ) (threshold beta : ℝ) (fuel : ℕ)
    (h1 : beta < 1) :
    beta + 1/2000000 < (calc_beta lls beta threshold fuel).1 := by
  rw [calc_beta_eq_loop lls beta threshold fuel h1]
  exact (calcBetaLoop_newBeta_bounds lls beta _ fuel beta 2 (by linarith)).1

/-- One orchestrator beta update: monotone, clamped to `1`, and advancing by
at least `min 1 (beta + 5e-7)`. -/
theorem nextBeta_props (lls : List ℝ) (threshold beta : ℝ) (fuel : ℕ)
    (_h0 : 0 ≤ beta) (h1 : beta < 1) :
    beta ≤ nextBeta lls threshold beta fuel ∧ nextBeta lls threshold beta fuel ≤ 1 ∧
      min 1 (beta + 1/2000000) ≤ nextBeta lls threshold beta fuel := by
  have hgt := calc_beta_newBeta_gt lls threshold beta fuel h1
  unfold nextBeta
  by_cases hc : 1 < (calc_beta lls beta threshold fuel).1
  · rw [if_pos hc]
    exact ⟨h1.le, le_rfl, min_le_left _ _⟩
  · rw [if_neg hc]
    push_neg at hc
    exact ⟨by linarith, hc, le_trans (min_le_right _ _) hgt.le⟩

/-- The beta sequence stays in `[0, 1]`. -/
theorem betaSeq_bounds (orc : ℕ → List ℝ) (threshold : ℝ) (fuel : ℕ) :
    ∀ m, 0 ≤ betaSeq orc threshold fuel m ∧ betaSeq orc threshold fuel m ≤ 1 := by
  intro m
  induction m with
  | zero => constructor <;> norm_num [betaSeq]
  | succ m ih =>
    simp only [betaSeq]
    by_cases h : betaSeq orc threshold fuel m < 1
    · rw [if_pos h]
      have hnp := nextBeta_props (orc m) threshold _ fuel ih.1 h
      exact ⟨le_trans ih.1 hnp.1, hnp.2.1⟩
    · rw [if_neg h]
      exact ih

/-- A frozen beta sequence stays frozen at `1`. -/
theorem betaSeq_frozen (orc : ℕ → List ℝ) (threshold : ℝ) (fuel : ℕ) (m : ℕ)
    (h : betaSeq orc threshold fuel m = 1) : betaSeq orc threshold fuel (m+1) = 1 := by
  simp only [betaSeq]
  rw [h]
  simp

/-- Until it reaches `1`, the beta sequence gains at least `5e-7` per stage. -/
theorem betaSeq_progress (orc : ℕ → List ℝ) (threshold : ℝ) (fuel : ℕ) :
    ∀ m, betaSeq orc threshold fuel m = 1 ∨
      (m : ℝ) * (1/2000000) ≤ betaSeq orc threshold fuel m := by
  intro m
  induction m with
  | zero => right; norm_num [betaSeq]
  | succ m ih =>
    by_cases hlt : betaSeq orc threshold fuel m < 1
    · rcases ih with h | h
      · exact absurd h (by intro hh; rw [hh] at hlt; exact lt_irrefl 1 hlt)
      · have hb := (betaSeq_bounds orc threshold fuel m).1
        have hnp := nextBeta_props (orc m) threshold _ fuel hb hlt
        have hstep : betaSeq orc threshold fuel (m+1) =
            nextBeta (orc m) threshold (betaSeq orc threshold fuel m) fuel := by
          simp only [betaSeq]
          rw [if_pos hlt]
        rcases le_or_lt 1 (betaSeq orc threshold fuel m + 1/2000000) with hc | hc
        · left
          rw [hstep]
          exact le_antisymm hnp.2.1 (le_trans (by rw [min_eq_left hc]) hnp.2.2)
        · right
          rw [hstep]
          have hmin : betaSeq orc threshold fuel m + 1/2000000 ≤
              nextBeta (orc m) threshold (betaSeq orc threshold fuel m) fuel := by
            have := hnp.2.2
            rwa [min_eq_right hc.le] at this
          push_cast
          linarith
    · left
      have hle := (betaSeq_bounds orc threshold fuel m).2
      exact betaSeq_frozen orc threshold fuel m (le_antisymm hle (not_lt.mp hlt))

/-- C3: across a `sample_smc` run the beta schedule satisfies
`0 ≤ beta ≤ 1` at every stage and is non-decreasing; `calc_beta` never
returns a `new_beta` below `old_beta`, a `new_beta` above `1` is clamped to
`1` by the orchestrator, and the `while beta < 1` stage loop terminates (in
at most `2e6` stages) exactly when `beta` reaches `1`. -/
theorem beta_schedule_invariants (orc : ℕ → List ℝ) (threshold : ℝ) (fuel : ℕ) :
    (∀ lls beta, beta < 1 → beta ≤ (calc_beta lls beta threshold fuel).1) ∧
    (∀ lls beta, 1 < (calc_beta lls beta threshold fuel).1 →
      nextBeta lls threshold beta fuel = 1) ∧
    (∀ m, 0 ≤ betaSeq orc threshold fuel m ∧ betaSeq orc threshold fuel m ≤ 1) ∧
    (∀ m, betaSeq orc threshold fuel m ≤ betaSeq orc threshold fuel (m+1)) ∧
    (∃ N, N ≤ 2000000 ∧ betaSeq orc threshold fuel N = 1) := by
  refine ⟨?_, ?_, betaSeq_bounds orc threshold fuel, ?_, ?_⟩
  · intro lls beta h1
    have := calc_beta_newBeta_gt lls threshold beta fuel h1
    linarith
  · intro lls beta hc
    unfold nextBeta
    rw [if_pos hc]
  · intro m
    by_cases h : betaSeq orc threshold fuel m < 1
    · have hnp := nextBeta_props (orc m) threshold _ fuel
        (betaSeq_bounds orc threshold fuel m).1 h
      have hstep : betaSeq orc threshold fuel (m+1) =
          nextBeta (orc m) threshold (betaSeq orc threshold fuel m) fuel := by
        simp only [betaSeq]
        rw [if_pos h]
      rw [hstep]
      exact hnp.1
    · have hstep : betaSeq orc threshold fuel (m+1) = betaSeq orc threshold fuel m := by
        simp only [betaSeq]
        rw [if_neg h]
      rw [hstep]
  · refine ⟨2000000, le_rfl, ?_⟩
    rcases betaSeq_progress orc threshold fuel 2000000 with h | h
    · exact h
    · have hle := (betaSeq_bounds orc threshold fuel 2000000).2
      have h1 : (1 : ℝ) ≤ betaSeq orc threshold fuel 2000000 := by
        have : ((2000000 : ℕ) : ℝ) * (1/2000000) = 1 := by norm_num
        linarith
      exact le_antisymm hle h1

/-- C3 witness: the invariants instantiated at a concrete oracle,
threshold `1/2` and fuel `21`. -/
theorem beta_schedule_invariants_witness :
    (∀ lls beta, beta < 1 → beta ≤ (calc_beta lls beta (1/2) 21).1) ∧
    (∀ lls beta, 1 < (calc_beta lls beta (1/2) 21).1 →
      nextBeta lls (1/2) beta 21 = 1) ∧
    (∀ m, 0 ≤ betaSeq (fun _ => [(0 : ℝ)]) (1/2) 21 m ∧
      betaSeq (fun _ => [(0 : ℝ)]) (1/2) 21 m ≤ 1) ∧
    (∀ m, betaSeq (fun _ => [(0 : ℝ)]) (1/2) 21 m ≤
      betaSeq (fun _ => [(0 : ℝ)]) (1/2) 21 (m+1)) ∧
    (∃ N, N ≤ 2000000 ∧ betaSeq (fun _ => [(0 : ℝ)]) (1/2) 21 N = 1) :=
  beta_schedule_invariants (fun _ => [(0 : ℝ)]) (1/2) 21

/-- Unfolding `findBucket`: step past a bucket whose cumulative weight is
below the selection point. -/
theorem findBucket_step_lt (cum : List ℝ) (x : ℝ) (j : ℕ) (h : j < cum.length)
    (hlt : cum.get ⟨j, h⟩ < x) : findBucket cum x j = findBucket cum x (j + 1) := by
  conv_lhs => unfold findBucket
  rw [dif_pos h, if_pos hlt]

/-- Unfolding `findBucket`: stop at the first bucket reaching the point. -/
theorem findBucket_stop (cum : List ℝ) (x : ℝ) (j : ℕ) (h : j < cum.length)
    (hge : ¬ cum.get ⟨j, h⟩ < x) : findBucket cum x j = j := by
  conv_lhs => unfold findBucket
  rw [dif_pos h, if_neg hge]

/-- Unfolding `findBucket`: out-of-range start (Python would raise). -/
theorem findBucket_oob (cum : List ℝ) (x : ℝ) (j : ℕ) (h : ¬ j < cum.length) :
    findBucket cum x j = j := by
  conv_lhs => unfold findBucket
  rw [dif_neg h]

/-- The bucket cursor never moves backwards. -/
theorem findBucket_ge (cum : List ℝ) (x : ℝ) (j : ℕ) : j ≤ findBucket cum x j := by
  induction j using findBucket.induct cum x with
  | case1 j h hlt ih => rw [findBucket_step_lt cum x j h hlt]; omega
  | case2 j h hlt => rw [findBucket_stop cum x j h hlt]
  | case3 j h => rw [findBucket_oob cum x j h]

/-- The bucket cursor never leaves the array. -/
theorem findBucket_le_length (cum : List ℝ) (x : ℝ) (j : ℕ) (hj : j ≤ cum.length) :
    findBucket cum x j ≤ cum.length := by
  induction j using findBucket.induct cum x with
  | case1 j h hlt ih => rw [findBucket_step_lt cum x j h hlt]; exact ih (by omega)
  | case2 j h hlt => rw [findBucket_stop cum x j h hlt]; omega
  | case3 j h => rw [findBucket_oob cum x j h]; exact hj

/-- Any bucket at or beyond the cursor whose cumulative weight reaches the
point bounds the scan. -/
theorem findBucket_le (cum : List ℝ) (x : ℝ) (j k : ℕ) (hk : k < cum.length)
    (hx : x ≤ cum.get ⟨k, hk⟩) (hjk : j ≤ k) : findBucket cum x j ≤ k := by
  induction j using findBucket.induct cum x with
  | case1 j h hlt ih =>
    rw [findBucket_step_lt cum x j h hlt]
    rcases Nat.lt_or_ge j k with hc | hc
    · exact ih (by omega)
    · have hjek : j = k := le_antisymm hjk hc
      subst hjek
      exact absurd hx (not_le.mpr hlt)
  | case2 j h hlt => rw [findBucket_stop cum x j h hlt]; exact hjk
  | case3 j h => rw [findBucket_oob cum x j h]; exact hjk

/-- Every bucket strictly before the one found has cumulative weight below
the selection point (minimality of the found bucket). -/
theorem findBucket_before (cum : List ℝ) (x : ℝ) (j m : ℕ) (hm : m < cum.length)
    (hjm : j ≤ m) (hfb : m < findBucket cum x j) : cum.get ⟨m, hm⟩ < x := by
  induction j using findBucket.induct cum x with
  | case1 j h hcl ih =>
    rcases Nat.eq_or_lt_of_le hjm with he | hlt2
    · subst he
      exact hcl
    · rw [findBucket_step_lt cum x j h hcl] at hfb
      exact ih hlt2 hfb
  | case2 j h hcl =>
    rw [findBucket_stop cum x j h hcl] at hfb
    omega
  | case3 j h =>
    rw [findBucket_oob cum x j h] at hfb
    omega

/-- Starting the scan anywhere inside a prefix of buckets that are all
strictly below the point gives the same bucket. -/
theorem findBucket_past (cum : List ℝ) (x : ℝ) (j j2 : ℕ) (hj : j ≤ j2)
    (hj2 : j2 ≤ cum.length)
    (h : ∀ m (hm : m < cum.length), j ≤ m → m < j2 → cum.get ⟨m, hm⟩ < x) :
    findBucket cum x j = findBucket cum x j2 := by
  induction j using findBucket.induct cum x with
  | case1 j hlen hcl ih =>
    rcases Nat.eq_or_lt_of_le hj with he | hlt2
    · rw [he]
    · rw [findBucket_step_lt cum x j hlen hcl]
      exact ih (by omega) (fun m hm h1 h2 => h m hm (by omega) h2)
  | case2 j hlen hcl =>
    rcases Nat.eq_or_lt_of_le hj with he | hlt2
    · rw [he]
    · exact absurd (h j hlen le_rfl hlt2) (by simpa using hcl)
  | case3 j hlen =>
    rcases Nat.eq_or_lt_of_le hj with he | hlt2
    · rw [he]
    · omega

/-- `cumsumAux` preserves length. -/
theorem cumsumAux_length (l : List ℝ) : ∀ acc, (cumsumAux acc l).length = l.length := by
  induction l with
  | nil => intro acc; rfl
  | cons x xs ih => intro acc; simp [cumsumAux, ih]

/-- `np.cumsum` preserves length. -/
theorem cumsum_length (l : List ℝ) : (cumsum l).length = l.length := cumsumAux_length l 0

/-- Entry `i` of `cumsumAux acc l` is `acc` plus the prefix sum. -/
theorem cumsumAux_get (l : List ℝ) : ∀ (acc : ℝ) (i : ℕ) (h : i < (cumsumAux acc l).length),
    (cumsumAux acc l).get ⟨i, h⟩ = acc + (l.take (i + 1)).sum := by
  induction l with
  | nil => intro acc i h; simp [cumsumAux] at h
  | cons x xs ih =>
    intro acc i h
    cases i with
    | zero => simp [cumsumAux]
    | succ i =>
      have h2 : i < (cumsumAux (acc + x) xs).length := by
        simpa [cumsumAux] using h
      have := ih (acc + x) i h2
      simp only [cumsumAux, List.get_cons_succ]
      rw [this]
      simp [List.take_succ_cons]
      ring

/-- Entry `i` of the cumulative distribution is the prefix sum. -/
theorem cumsum_get (l : List ℝ) (i : ℕ) (h : i < (cumsum l).length) :
    (cumsum l).get ⟨i, h⟩ = (l.take (i + 1)).sum := by
  show (cumsumAux 0 l).get ⟨i, h⟩ = (l.take (i + 1)).sum
  rw [cumsumAux_get l 0 i h, zero_add]

/-- `bump` preserves length. -/
theorem bump_length (l : List ℕ) : ∀ k, (bump l k).length = l.length := by
  induction l with
  | nil => intro k; rfl
  | cons c cs ih =>
    intro k
    cases k with
    | zero => rfl
    | succ k => simp [bump, ih]

/-- `bump` at a valid index increases the sum by one. -/
theorem bump_sum (l : List ℕ) : ∀ k, k < l.length → (bump l k).sum = l.sum + 1 := by
  induction l with
  | nil => intro k hk; simp at hk
  | cons c cs ih =>
    intro k hk
    cases k with
    | zero => simp [bump]; omega
    | succ k =>
      have := ih k (by simpa using hk)
      simp [bump, this]
      omega

/-- The accumulation loop of `SMC.resample` preserves the length of the
counts array and increments its sum once per selection point, as long as
some bucket at or beyond the cursor covers all points. -/
theorem countsLoop_master (cum : List ℝ) (k : ℕ) (hk : k < cum.length) :
    ∀ (pts : List ℝ) (j : ℕ) (counts : List ℕ),
      counts.length = cum.length → j ≤ k →
      (∀ x ∈ pts, x ≤ cum.get ⟨k, hk⟩) →
      (countsLoop cum pts j counts).length = counts.length ∧
      (countsLoop cum pts j counts).sum = counts.sum + pts.length := by
  intro pts
  induction pts with
  | nil => intro j counts hlen hjk hx; exact ⟨rfl, by simp [countsLoop]⟩
  | cons x xs ih =>
    intro j counts hlen hjk hx
    have hb : findBucket cum x j ≤ k :=
      findBucket_le cum x j k hk (hx x (by simp)) hjk
    have hblt : findBucket cum x j < counts.length := by omega
    have hrec := ih (findBucket cum x j) (bump counts (findBucket cum x j))
      (by rw [bump_length]; exact hlen) hb (fun y hy => hx y (by simp [hy]))
    simp only [countsLoop]
    refine ⟨?_, ?_⟩
    · rw [hrec.1, bump_length]
    · rw [hrec.2, bump_sum counts _ hblt]
      simp
      omega

/-- For sorted selection points the threaded cursor of `SMC.resample` finds
the same buckets as an independent scan from bucket 0 for every point: the
code computes the spec's "smallest containing bucket" assignment. -/
theorem countsLoop_eq_spec (cum : List ℝ) :
    ∀ (pts : List ℝ) (j : ℕ) (counts : List ℕ),
      j ≤ cum.length → pts.Pairwise (· ≤ ·) →
      (∀ x ∈ pts, ∀ m (hm : m < cum.length), m < j → cum.get ⟨m, hm⟩ < x) →
      countsLoop cum pts j counts =
        pts.foldl (fun acc x => bump acc (findBucket cum x 0)) counts := by
  intro pts
  induction pts with
  | nil => intro j counts _ _ _; rfl
  | cons x xs ih =>
    intro j counts hj hpair hinv
    have hx0 : findBucket cum x j = findBucket cum x 0 := by
      refine (findBucket_past cum x 0 j (Nat.zero_le j) hj ?_).symm
      intro m hm _ hmj
      exact hinv x (by simp) m hm hmj
    simp only [countsLoop, List.foldl_cons]
    rw [hx0]
    apply ih
    · exact findBucket_le_length cum x 0 (Nat.zero_le _)
    · exact hpair.of_cons
    · intro y hy m hm hmb
      have hcmx : cum.get ⟨m, hm⟩ < x :=
        findBucket_before cum x 0 m hm (Nat.zero_le m) hmb
      have hxy : x ≤ y := (List.pairwise_cons.mp hpair).1 y hy
      exact lt_of_lt_of_le hcmx hxy

/-- There are `chains` systematic selection points. -/
theorem selPoints_length (n : ℕ) (u0 : ℝ) : (selPoints n u0).length = n := by
  rw [selPoints, List.length_map, List.length_range]

/-- The systematic selection points are sorted in increasing order. -/
theorem selPoints_sorted (n : ℕ) (u0 : ℝ) : (selPoints n u0).Pairwise (· ≤ ·) := by
  unfold selPoints
  rw [List.pairwise_map]
  refine (List.pairwise_lt_range n).imp ?_
  intro a b hab
  rcases Nat.eq_zero_or_pos n with hn | hn
  · subst hn
    norm_num
  · have hn2 : (0 : ℝ) < (n : ℝ) := by exact_mod_cast hn
    have hab2 : ((a : ℝ) + u0) ≤ ((b : ℝ) + u0) := by
      have : (a : ℝ) ≤ (b : ℝ) := by exact_mod_cast hab.le
      linarith
    exact (div_le_div_iff_of_pos_right hn2).mpr hab2

/-- For `u0 < 1` every selection point lies strictly below `1`. -/
theorem selPoints_lt_one (n : ℕ) (u0 : ℝ) (hn : 0 < n) (hu1 : u0 < 1) :
    ∀ x ∈ selPoints n u0, x < 1 := by
  intro x hx
  unfold selPoints at hx
  obtain ⟨k, hk, rfl⟩ := List.mem_map.mp hx
  rw [List.mem_range] at hk
  have hn2 : (0 : ℝ) < (n : ℝ) := by exact_mod_cast hn
  rw [div_lt_one hn2]
  have hk2 : (k : ℝ) ≤ (n : ℝ) - 1 := by
    have : (k : ℝ) + 1 ≤ (n : ℝ) := by exact_mod_cast hk
    linarith
  linarith

/-- The expanded index array always has length `chains`. -/
theorem expandCounts_length (chains : ℕ) (counts : List ℕ) :
    (expandCounts chains counts).length = chains := by
  rw [expandCounts, List.length_take, List.length_append, List.length_replicate]
  omega

/-- Every expanded index is a valid parent index. -/
theorem expandCounts_mem (chains : ℕ) (counts : List ℕ) (hc : 0 < chains)
    (hlen : counts.length ≤ chains) :
    ∀ v ∈ expandCounts chains counts, v < chains := by
  intro v hv
  rw [expandCounts] at hv
  have hv2 := List.mem_of_mem_take hv
  rcases List.mem_append.mp hv2 with hm | hm
  · obtain ⟨p, hp, hrep⟩ := List.mem_flatMap.mp hm
    have hvp : v = p.1 := List.eq_of_mem_replicate hrep
    have hplt : p.1 < counts.length := by
      obtain ⟨i, c⟩ := p
      have hg := List.mem_enum_iff_getElem?.mp hp
      simp only at hg
      exact (List.getElem?_eq_some.mp hg).1
    omega
  · have := List.eq_of_mem_replicate hm
    omega

/-- C5: for a nonempty weight vector with non-negative entries summing to 1
and a uniform offset `u0 ∈ [0, 1)`, `SMC.resample` returns an index array of
exactly `chains` entries, each in `[0, chains)`, obtained by expanding the
systematic child counts; the child counts sum to `chains` and coincide with
the spec's assignment of each selection point `(k + u0)/chains` to the
smallest cumulative-weight bucket containing it. -/
theorem resample_props (w : List ℝ) (u0 : ℝ)
    (hne : w ≠ []) (_hnn : ∀ x ∈ w, 0 ≤ x) (hsum : w.sum = 1)
    (_hu0 : 0 ≤ u0) (hu1 : u0 < 1) :
    (resample w u0).length = w.length ∧
    (∀ v ∈ resample w u0, v < w.length) ∧
    (resampleCounts w u0).sum = w.length ∧
    resampleCounts w u0 = resampleCountsSpec w u0 := by
  have hn : 0 < w.length := List.length_pos.mpr hne
  have hclen : (cumsum w).length = w.length := cumsum_length w
  have hk : w.length - 1 < (cumsum w).length := by omega
  have hlast : (cumsum w).get ⟨w.length - 1, hk⟩ = 1 := by
    rw [cumsum_get]
    have h1 : w.length - 1 + 1 = w.length := by omega
    rw [h1, List.take_length]
    exact hsum
  have hpts : ∀ x ∈ selPoints w.length u0, x ≤ (cumsum w).get ⟨w.length - 1, hk⟩ := by
    intro x hx
    rw [hlast]
    exact (selPoints_lt_one w.length u0 hn hu1 x hx).le
  have hmaster := countsLoop_master (cumsum w) (w.length - 1) hk (selPoints w.length u0) 0
    (List.replicate w.length 0) (by rw [List.length_replicate, hclen]) (Nat.zero_le _) hpts
  have hcounts_len : (resampleCounts w u0).length = w.length := by
    rw [resampleCounts, hmaster.1, List.length_replicate]
  have hcounts_sum : (resampleCounts w u0).sum = w.length := by
    rw [resampleCounts, hmaster.2, selPoints_length]
    simp
  refine ⟨expandCounts_length w.length (resampleCounts w u0), ?_, hcounts_sum, ?_⟩
  · exact expandCounts_mem w.length (resampleCounts w u0) hn (le_of_eq hcounts_len)
  · rw [resampleCounts, resampleCountsSpec]
    apply countsLoop_eq_spec
    · omega
    · exact selPoints_sorted w.length u0
    · intro x hx m hm hm0
      omega

/-- C5 witness: the theorem applied to uniform weights `[1/2, 1/2]` and
offset `u0 = 0`. -/
theorem resample_props_witness :
    (resample [(1 : ℝ)/2, 1/2] 0).length = ([(1 : ℝ)/2, 1/2] : List ℝ).length ∧
    (∀ v ∈ resample [(1 : ℝ)/2, 1/2] 0, v < ([(1 : ℝ)/2, 1/2] : List ℝ).length) ∧
    (resampleCounts [(1 : ℝ)/2, 1/2] 0).sum = ([(1 : ℝ)/2, 1/2] : List ℝ).length ∧
    resampleCounts [(1 : ℝ)/2, 1/2] 0 = resampleCountsSpec [(1 : ℝ)/2, 1/2] 0 :=
  resample_props [(1 : ℝ)/2, 1/2] 0 (by simp)
    (by intro x hx
        simp only [List.mem_cons, List.not_mem_nil, or_false] at hx
        rcases hx with h | h <;> norm_num [h])
    (by norm_num) le_rfl (by norm_num)

/-- C8 witness: the amended theorem applied to a concrete valid
configuration. -/
theorem checkConfig_error_iff_witness :
    ((∃ msg,
        checkConfig
          { homepath := some ['h'], chains := 2, cores := 2, start := none,
            likelihood_name := ['l'], deterministic_names := [['l']] } = Except.error msg) ↔
      configAmendedError
        { homepath := some ['h'], chains := 2, cores := 2, start := none,
          likelihood_name := ['l'], deterministic_names := [['l']] }) ∧
    (¬ configAmendedError
        { homepath := some ['h'], chains := 2, cores := 2, start := none,
          likelihood_name := ['l'], deterministic_names := [['l']] } →
      checkConfig
        { homepath := some ['h'], chains := 2, cores := 2, start := none,
          likelihood_name := ['l'], deterministic_names := [['l']] } = Except.ok ()) :=
  checkConfig_error_iff
    { homepath := some ['h'], chains := 2, cores := 2, start := none,
      likelihood_name := ['l'], deterministic_names := [['l']] }

/-- C10 witness: the equivalence applied to concrete flags, parameters,
state and stream. -/
theorem check_bound_flag_no_effect_witness :
    (smcInit true 1 1 0 [] (fun _ => []) (fun _ => none)).check_bnd =
      CheckBnd.fn (fun _ => none) ∧
    astep (smcInit true 1 1 0 [] (fun _ => []) (fun _ => none))
        { scaling := 1, n_steps := 1, steps_until_tune := 1, accepted := 0, stage_sample := 0,
          stage := 0, beta := 0, chain_previous_lpoint := [], proposal_samples_array := [] }
        [] [] 0 =
      astep (smcInit false 1 1 0 [] (fun _ => []) (fun _ => none))
        { scaling := 1, n_steps := 1, steps_until_tune := 1, accepted := 0, stage_sample := 0,
          stage := 0, beta := 0, chain_previous_lpoint := [], proposal_samples_array := [] }
        [] [] 0 :=
  check_bound_flag_no_effect true false 1 1 0 [] (fun _ => []) (fun _ => none)
    { scaling := 1, n_steps := 1, steps_until_tune := 1, accepted := 0, stage_sample := 0,
      stage := 0, beta := 0, chain_previous_lpoint := [], proposal_samples_array := [] }
    [] [] 0
